import Mathlib

/-!
Verification of the OutlineIQ PDF outline extractor (`utils.py`).

The extractor is embedded shallowly: Python strings become `List Char`,
float font sizes become `ℚ`, exceptions become `Option`/`Except` values,
and the per-page control flow of `extract_outline` becomes explicit list
processing.  Every definition is translated from `src/utils.py`; abstract
inputs (span lists, page contents, metadata title) stand for the values
PyMuPDF would deliver.
-/

namespace OutlineIQ

/-- Python strings are modelled as lists of characters. -/
abbrev Str := List Char

/-- ASCII whitespace recognised by Python's `str.split()` / `str.strip()`
(the Unicode-only whitespace code points are not modelled). -/
def pyIsSpace (c : Char) : Bool :=
  c = ' ' || c = '\t' || c = '\n' || c = '\x0d' || c = '\x0b' || c = '\x0c'

/-- Python `s.strip()`: drop whitespace from both ends. -/
def pyStrip (s : Str) : Str :=
  ((s.dropWhile pyIsSpace).reverse.dropWhile pyIsSpace).reverse

theorem dropWhile_len_le (p : Char → Bool) (l : Str) :
    (l.dropWhile p).length ≤ l.length := by
  induction l with
  | nil => simp
  | cons c t ih =>
    by_cases h : p c
    · simp only [List.dropWhile_cons, h, if_true]
      exact ih.trans (Nat.le_succ _)
    · simp [List.dropWhile_cons, h]

/-- Python `s.split()` (no argument): split on whitespace runs, dropping
empty pieces. -/
def pySplitWs : Str → List Str
  | [] => []
  | c :: t =>
    if pyIsSpace c then pySplitWs t
    else (c :: t.takeWhile (fun d => !pyIsSpace d)) ::
      pySplitWs (t.dropWhile (fun d => !pyIsSpace d))
  termination_by s => s.length
  decreasing_by
    all_goals simp only [List.length_cons]
    · omega
    · exact Nat.lt_succ_of_le (dropWhile_len_le _ t)

/-- Python `" ".join(pieces)`: the pieces separated by single spaces. -/
def joinWords : List Str → Str
  | [] => []
  | [w] => w
  | w :: ws => w ++ ' ' :: joinWords ws

/-- The `_normalize_text` helper of `utils.py`:
`" ".join(s.split()).strip()`. -/
def normalizeText (s : Str) : Str :=
  pyStrip (joinWords (pySplitWs s))

/-- Heading levels H1/H2/H3 (`utils.py` writes them as strings). -/
inductive Level
  | H1
  | H2
  | H3
deriving DecidableEq, Repr

/-- The raw value found in a span's `"size"` field, as seen by
`float(span.get("size", 0))`: absent, present but not convertible to a
float, or a finite numeric value. -/
inductive SizeVal
  | missing
  | malformed
  | num (q : ℚ)
deriving DecidableEq

/-- One span of a text line: its `"text"` (defaulting to the empty string
when absent) and its `"size"` field. -/
structure Span where
  text : Str
  size : SizeVal
deriving DecidableEq

/-- One line of a text block: its list of spans. -/
structure Line where
  spans : List Span
deriving DecidableEq

/-- Thresholds and flags of `extract_outline`, with the Python defaults. -/
structure Config where
  min_h1 : ℚ := 18
  min_h2 : ℚ := 14
  min_h3 : ℚ := 10
  detect_first_image_only : Bool := true
deriving DecidableEq

/-- The tiered cutoff of `utils.py` lines 138-144:
H1 if `size ≥ min_h1`, else H2 if `size ≥ min_h2`, else H3 if
`size ≥ min_h3`, else no heading. -/
def classify (min_h1 min_h2 min_h3 size : ℚ) : Option Level :=
  if size ≥ min_h1 then some .H1
  else if size ≥ min_h2 then some .H2
  else if size ≥ min_h3 then some .H3
  else none

/-- Evaluation of `float(span.get("size", 0))`: a missing field yields `0`,
a malformed one raises (an error value), a numeric one converts. -/
def sizeVal : SizeVal → Except Unit ℚ
  | .missing => .ok 0
  | .malformed => .error ()
  | .num q => .ok q

/-- Evaluation of the generator `(float(span.get("size", 0)) for span in
spans)`: the sizes in span order, or the first conversion error. -/
def collectSizes : List Span → Except Unit (List ℚ)
  | [] => .ok []
  | sp :: t =>
    match sizeVal sp.size, collectSizes t with
    | .error e, _ => .error e
    | .ok _, .error e => .error e
    | .ok q, .ok qs => .ok (q :: qs)

/-- Lines 133-136 of `utils.py`: the largest span font size of the line,
`max(float(span.get("size", 0)) for span in spans)`, with any exception
(a malformed size, or an empty span list) caught and replaced by `0.0`. -/
def lineMaxFont (spans : List Span) : ℚ :=
  match collectSizes spans with
  | .error _ => 0
  | .ok [] => 0
  | .ok (q :: qs) => qs.foldl max q

/-- Python's `round` restricted to integers: round half to even. -/
def roundHalfEven (q : ℚ) : ℤ :=
  if q - ⌊q⌋ < 1 / 2 then ⌊q⌋
  else if q - ⌊q⌋ > 1 / 2 then ⌊q⌋ + 1
  else if Even ⌊q⌋ then ⌊q⌋ else ⌊q⌋ + 1

/-- Python's `round(x, 2)`: round to two decimal places. -/
def round2 (q : ℚ) : ℚ :=
  (roundHalfEven (q * 100) : ℚ) / 100

/-- A stored heading record
`{"level": .., "text": .., "page": .., "font_size": ..}`. -/
structure Heading where
  level : Level
  text : Str
  page : ℕ
  font_size : ℚ
deriving DecidableEq

/-- Lines 125-153 of `utils.py`, the per-line part of the heading scan:
skip the line when its span list is empty or its joined text strips to
empty, otherwise classify the largest font size and, on success, store the
normalized text, the page number and the rounded size. -/
def lineHeading (cfg : Config) (page : ℕ) (line : Line) : Option Heading :=
  if line.spans = [] then none
  else if pyStrip (joinWords (line.spans.map Span.text)) = [] then none
  else
    (classify cfg.min_h1 cfg.min_h2 cfg.min_h3 (lineMaxFont line.spans)).map
      (fun lvl =>
        { level := lvl,
          text := normalizeText (pyStrip (joinWords (line.spans.map Span.text))),
          page := page,
          font_size := round2 (lineMaxFont line.spans) })

/-- Python `s.lower()` restricted to ASCII case mapping. -/
def pyLower (s : Str) : Str := s.map Char.toLower

/-- The dedup key of `utils.py` line 161:
`(h["level"], h["text"].lower(), h["page"])`. -/
def headingKey (h : Heading) : Level × Str × ℕ :=
  (h.level, pyLower h.text, h.page)

/-- The dedup loop of `utils.py` lines 158-164, with the `seen` set
modelled as the list of keys already kept. -/
def dedupAux (seen : List (Level × Str × ℕ)) : List Heading → List Heading
  | [] => []
  | h :: t =>
    if headingKey h ∈ seen then dedupAux seen t
    else h :: dedupAux (headingKey h :: seen) t

/-- Deduplication of the accumulated heading sequence. -/
def dedupHeadings (hs : List Heading) : List Heading := dedupAux [] hs

/-- Keep-the-first-occurrence-of-each-key filtering, written directly from
the specification text: keep the head, then recursively keep the first
occurrences among the later headings whose key differs from the head's. -/
def keepFirstByKey : List Heading → List Heading
  | [] => []
  | h :: t => h :: keepFirstByKey (t.filter (fun h' => headingKey h' ≠ headingKey h))
  termination_by l => l.length
  decreasing_by
    simp only [List.length_cons]
    exact Nat.lt_succ_of_le (t.length_filter_le _)

/-- One image reference of a page, as the heading scan sees it: the result
of the `extract_image` / `_make_image_preview` pipeline for that xref.
`some s` means a preview string `s` was produced; `none` means the inner
`try` of lines 98-105 caught a failure (or `base_image.get("image")` was
empty) and the reference contributed nothing. -/
structure ImgRef where
  result : Option Str
deriving DecidableEq

/-- One entry of `page.get_links()`: the optional `"uri"` field. -/
structure LinkItem where
  uri : Option Str
deriving DecidableEq

/-- One block of `page.get_text("dict")["blocks"]`: `linesOpt = none`
models a block without a `"lines"` key (skipped at line 123). -/
structure Block where
  linesOpt : Option (List Line)
deriving DecidableEq

/-- One page of the document.  Each field is the outcome of the
corresponding per-page `try` block: `none` means the call raised and the
`except` branch logged and skipped the subsystem for this page. -/
structure Page where
  imagesRes : Option (List ImgRef)
  linksRes : Option (List LinkItem)
  blocksRes : Option (List Block)
deriving DecidableEq

/-- A successfully opened document: its optional metadata title and its
pages in order. -/
structure DocModel where
  title : Option Str
  pages : List Page
deriving DecidableEq

/-- A stored link record `{"page": .., "uri": ..}`. -/
structure LinkRef where
  page : ℕ
  uri : Str
deriving DecidableEq

/-- A stored preview record `{"page": .., "preview": ..}`. -/
structure PreviewEntry where
  page : ℕ
  preview : Str
deriving DecidableEq

/-- The `metadata` dictionary of the result. -/
structure Metadata where
  pages_with_images : List ℕ
  links : List LinkRef
  image_previews : List PreviewEntry
deriving DecidableEq

/-- The triple returned by `extract_outline`. -/
structure ExtractionResult where
  title : Str
  headings : List Heading
  metadata : Metadata
deriving DecidableEq

/-- Lines 79-81 of `utils.py`: `(doc.metadata.get("title") or "").strip()
or "Untitled"`. -/
def resolveTitle (t : Option Str) : Str :=
  if pyStrip (t.getD []) = [] then "Untitled".toList
  else pyStrip (t.getD [])

/-- Lines 90-95 of `utils.py`: a page is recorded in `pages_with_images`
iff `page.get_images(full=True)` succeeded and returned a non-empty list. -/
def pageHasImages (p : Page) : Bool :=
  match p.imagesRes with
  | none => false
  | some l => !l.isEmpty

/-- The `pages_with_images` accumulator (a Python `set`), built while
walking the pages with 1-based numbering starting at `n`. -/
def pagesWithImagesSet (n : ℕ) : List Page → Finset ℕ
  | [] => ∅
  | p :: t =>
    if pageHasImages p then insert n (pagesWithImagesSet (n + 1) t)
    else pagesWithImagesSet (n + 1) t

/-- Lines 94-103 of `utils.py`: previews produced for one page.  In
single-preview mode only the first reference is processed
(`images[:1]`); otherwise all of them are. -/
def pagePreviews (cfg : Config) (n : ℕ) (p : Page) : List PreviewEntry :=
  match p.imagesRes with
  | none => []
  | some imgs =>
    (if cfg.detect_first_image_only then imgs.take 1 else imgs).filterMap
      (fun r => r.result.map (fun s => ⟨n, s⟩))

/-- Lines 110-116 of `utils.py`: links of one page carrying a truthy
(non-empty) `uri`. -/
def pageLinks (n : ℕ) (p : Page) : List LinkRef :=
  match p.linksRes with
  | none => []
  | some ls =>
    ls.filterMap (fun l => match l.uri with
      | none => none
      | some u => if u = [] then none else some ⟨n, u⟩)

/-- Lines 119-155 of `utils.py`: headings found on one page, skipping
blocks without a `"lines"` key. -/
def pageHeadings (cfg : Config) (n : ℕ) (p : Page) : List Heading :=
  match p.blocksRes with
  | none => []
  | some blocks =>
    blocks.flatMap (fun b => match b.linesOpt with
      | none => []
      | some lines => lines.filterMap (lineHeading cfg n))

/-- Pages paired with their 1-based page numbers, starting at `n`. -/
def enumFrom (n : ℕ) : List Page → List (ℕ × Page)
  | [] => []
  | p :: t => (n, p) :: enumFrom (n + 1) t

/-- The body of `extract_outline` applied to an opened document. -/
def extractDoc (cfg : Config) (doc : DocModel) : ExtractionResult :=
  let indexed := enumFrom 1 doc.pages
  { title := resolveTitle doc.title
    headings := dedupHeadings (indexed.flatMap (fun np => pageHeadings cfg np.1 np.2))
    metadata :=
      { pages_with_images := (pagesWithImagesSet 1 doc.pages).sort (· ≤ ·)
        links := indexed.flatMap (fun np => pageLinks np.1 np.2)
        image_previews := indexed.flatMap (fun np => pagePreviews cfg np.1 np.2) } }

/-- The error raised when the document cannot be opened. -/
inductive ExtractErr
  | documentOpenError
deriving DecidableEq

/-- The whole of `extract_outline`: `fitz.open` either fails (modelled by
the `Except.error` input) — which propagates as the open error — or
yields a document that is processed to completion. -/
def extract (cfg : Config) (opened : Except Unit DocModel) :
    Except ExtractErr ExtractionResult :=
  match opened with
  | .error _ => .error .documentOpenError
  | .ok doc => .ok (extractDoc cfg doc)

/-- CLAIM C1.  With thresholds ordered `min_h3 ≤ min_h2 ≤ min_h1`, the
classifier assigns H1 iff `s ≥ min_h1`, H2 iff `min_h2 ≤ s < min_h1`, H3
iff `min_h3 ≤ s < min_h2`, and no heading iff `s < min_h3`; a size equal
to a threshold lands in the higher tier (immediate from the iffs: at
`s = min_h1` the H1 characterisation holds). -/
theorem classify_tiers (m1 m2 m3 s : ℚ) (h21 : m2 ≤ m1) (h32 : m3 ≤ m2) :
    (classify m1 m2 m3 s = some .H1 ↔ m1 ≤ s) ∧
    (classify m1 m2 m3 s = some .H2 ↔ m2 ≤ s ∧ s < m1) ∧
    (classify m1 m2 m3 s = some .H3 ↔ m3 ≤ s ∧ s < m2) ∧
    (classify m1 m2 m3 s = none ↔ s < m3) := by
  unfold classify
  split_ifs with h1 h2 h3 <;>
    refine ⟨?_, ?_, ?_, ?_⟩ <;> simp_all <;> first | linarith | intro h | skip
  all_goals linarith

/-- Witness for C1 at the default thresholds 18/14/10 and size 18:
the boundary value classifies as H1. -/
theorem classify_tiers_witness :
    ((14 : ℚ) ≤ 18 ∧ (10 : ℚ) ≤ 14) ∧
      (classify 18 14 10 18 = some .H1 ↔ (18 : ℚ) ≤ 18) :=
  ⟨⟨by norm_num, by norm_num⟩,
    (classify_tiers 18 14 10 18 (by norm_num) (by norm_num)).1⟩

theorem key_mem_dedupAux (seen : List (Level × Str × ℕ)) (l : List Heading)
    (k : Level × Str × ℕ) :
    k ∈ (dedupAux seen l).map headingKey ↔
      k ∉ seen ∧ k ∈ l.map headingKey := by
  induction l generalizing seen with
  | nil => simp [dedupAux]
  | cons h t ih =>
    by_cases hk : headingKey h ∈ seen
    · simp only [dedupAux, if_pos hk, ih, List.map_cons, List.mem_cons]
      constructor
      · rintro ⟨hns, hm⟩
        exact ⟨hns, Or.inr hm⟩
      · rintro ⟨hns, hm | hm⟩
        · exact absurd (hm ▸ hk) hns
        · exact ⟨hns, hm⟩
    · simp only [dedupAux, if_neg hk, List.map_cons, List.mem_cons, ih,
        List.mem_cons, not_or]
      constructor
      · rintro (rfl | ⟨⟨hkh, hns⟩, hm⟩)
        · exact ⟨hk, Or.inl rfl⟩
        · exact ⟨hns, Or.inr hm⟩
      · rintro ⟨hns, rfl | hm⟩
        · exact Or.inl rfl
        · by_cases hkh : k = headingKey h
          · exact Or.inl hkh
          · exact Or.inr ⟨⟨hkh, hns⟩, hm⟩

theorem dedupAux_keys_nodup (seen : List (Level × Str × ℕ))
    (l : List Heading) : ((dedupAux seen l).map headingKey).Nodup := by
  induction l generalizing seen with
  | nil => simp [dedupAux]
  | cons h t ih =>
    by_cases hk : headingKey h ∈ seen
    · simpa [dedupAux, if_pos hk] using ih seen
    · simp only [dedupAux, if_neg hk, List.map_cons, List.nodup_cons]
      refine ⟨fun hm => ?_, ih _⟩
      exact ((key_mem_dedupAux _ _ _).1 hm).1 (List.mem_cons_self _ _)

theorem dedupAux_sublist (seen : List (Level × Str × ℕ))
    (l : List Heading) : List.Sublist (dedupAux seen l) l := by
  induction l generalizing seen with
  | nil => simp [dedupAux]
  | cons h t ih =>
    by_cases hk : headingKey h ∈ seen
    · simpa [dedupAux, if_pos hk] using (ih seen).cons h
    · simpa [dedupAux, if_neg hk] using (ih (headingKey h :: seen)).cons₂ h

theorem dedupAux_eq_keepFirst (seen : List (Level × Str × ℕ))
    (l : List Heading) :
    dedupAux seen l =
      keepFirstByKey (l.filter (fun h => headingKey h ∉ seen)) := by
  induction l generalizing seen with
  | nil => simp [dedupAux, keepFirstByKey]
  | cons h t ih =>
    by_cases hk : headingKey h ∈ seen
    · simp only [dedupAux, if_pos hk, List.filter_cons, decide_eq_true_eq]
      rw [if_neg (by simp [hk])]
      exact ih seen
    · simp only [dedupAux, if_neg hk, List.filter_cons]
      rw [if_pos (by simp [hk]), keepFirstByKey, List.filter_filter]
      congr 1
      rw [ih (headingKey h :: seen)]
      congr 1
      apply List.filter_congr
      intro a _
      simp only [List.mem_cons, decide_eq_true_eq, not_or, Bool.and_comm]
      by_cases h1 : headingKey a = headingKey h <;>
        by_cases h2 : headingKey a ∈ seen <;> simp [h1, h2]

theorem dedupAux_id_of_nodup (seen : List (Level × Str × ℕ))
    (l : List Heading) (hd : (l.map headingKey).Nodup)
    (hs : ∀ h ∈ l, headingKey h ∉ seen) : dedupAux seen l = l := by
  induction l generalizing seen with
  | nil => rfl
  | cons h t ih =>
    simp only [List.map_cons, List.nodup_cons] at hd
    rw [dedupAux, if_neg (hs h (List.mem_cons_self _ _))]
    congr 1
    refine ih _ hd.2 (fun h' hm => ?_)
    simp only [List.mem_cons, not_or]
    refine ⟨fun he => hd.1 ?_, hs h' (List.mem_cons_of_mem _ hm)⟩
    exact he ▸ List.mem_map_of_mem headingKey hm

/-- CLAIM C2.  The assembler's deduplication keeps exactly the first
occurrence of each composite key (level, lowercase text, page) in the
original encounter order (it coincides with the keep-first-occurrence
filter written from the specification), it is idempotent, and its output
is a sublist of its input, so distinct keys are never reordered. -/
theorem dedup_first_occurrence (l : List Heading) :
    dedupHeadings l = keepFirstByKey l ∧
    dedupHeadings (dedupHeadings l) = dedupHeadings l ∧
    List.Sublist (dedupHeadings l) l := by
  refine ⟨?_, ?_, dedupAux_sublist [] l⟩
  · rw [dedupHeadings, dedupAux_eq_keepFirst]
    congr 1
    apply List.filter_eq_self.2
    intro a _
    simp
  · rw [dedupHeadings, dedupHeadings]
    exact dedupAux_id_of_nodup [] _ (dedupAux_keys_nodup [] l)
      (fun h _ => List.not_mem_nil _)

theorem pageHasImages_iff (p : Page) :
    pageHasImages p = true ↔
      ∃ refs, p.imagesRes = some refs ∧ refs ≠ [] := by
  cases p with
  | mk ir lr br =>
    cases ir with
    | none => simp [pageHasImages]
    | some l => cases l <;> simp [pageHasImages]

theorem mem_pagesWithImagesSet (pages : List Page) (n m : ℕ) :
    m ∈ pagesWithImagesSet n pages ↔
      ∃ i, ∃ hi : i < pages.length,
        m = n + i ∧ pageHasImages (pages.get ⟨i, hi⟩) := by
  induction pages generalizing n with
  | nil => simp [pagesWithImagesSet]
  | cons p t ih =>
    by_cases hp : pageHasImages p
    · rw [pagesWithImagesSet, if_pos hp]
      simp only [Finset.mem_insert, ih]
      constructor
      · rintro (rfl | ⟨i, hi, rfl, hg⟩)
        · exact ⟨0, Nat.succ_pos _, by simp, by simpa using hp⟩
        · exact ⟨i + 1, Nat.succ_lt_succ hi, by omega, by simpa using hg⟩
      · rintro ⟨i, hi, rfl, hg⟩
        cases i with
        | zero => exact Or.inl (by omega)
        | succ j =>
          refine Or.inr ⟨j, Nat.lt_of_succ_lt_succ hi, by omega, by simpa using hg⟩
    · rw [pagesWithImagesSet, if_neg hp]
      simp only [ih]
      constructor
      · rintro ⟨i, hi, rfl, hg⟩
        exact ⟨i + 1, Nat.succ_lt_succ hi, by omega, by simpa using hg⟩
      · rintro ⟨i, hi, rfl, hg⟩
        cases i with
        | zero => exact absurd (by simpa using hg) hp
        | succ j =>
          refine ⟨j, Nat.lt_of_succ_lt_succ hi, by omega, by simpa using hg⟩

theorem pagesWithImagesSet_congr (ps qs : List Page) (n : ℕ)
    (h : List.Forall₂ (fun p q => pageHasImages p = pageHasImages q) ps qs) :
    pagesWithImagesSet n ps = pagesWithImagesSet n qs := by
  induction h generalizing n with
  | nil => rfl
  | cons hpq _ ih =>
    simp only [pagesWithImagesSet, hpq, ih]

/-- CLAIM C3.  The metadata's `pages_with_images` is strictly ascending
(so has no repeats); a page number is a member iff that page's image
enumeration returned at least one reference; and the list depends on
nothing else — not on the configuration (in particular not on
`detect_first_image_only`) and not on any other page data (in particular
not on whether preview generation succeeded), only on which pages have
images. -/
theorem pages_with_images_spec (cfg cfg' : Config) (doc doc' : DocModel) :
    List.Sorted (· < ·) (extractDoc cfg doc).metadata.pages_with_images ∧
    (∀ m, m ∈ (extractDoc cfg doc).metadata.pages_with_images ↔
      ∃ i, ∃ hi : i < doc.pages.length, m = i + 1 ∧
        ∃ refs, (doc.pages.get ⟨i, hi⟩).imagesRes = some refs ∧ refs ≠ []) ∧
    (List.Forall₂ (fun p q => pageHasImages p = pageHasImages q)
        doc.pages doc'.pages →
      (extractDoc cfg doc).metadata.pages_with_images =
        (extractDoc cfg' doc').metadata.pages_with_images) := by
  refine ⟨Finset.sort_sorted_lt _, fun m => ?_, fun hf => ?_⟩
  · show m ∈ (pagesWithImagesSet 1 doc.pages).sort (· ≤ ·) ↔ _
    rw [Finset.mem_sort, mem_pagesWithImagesSet]
    constructor
    · rintro ⟨i, hi, rfl, hg⟩
      exact ⟨i, hi, by omega, (pageHasImages_iff _).1 hg⟩
    · rintro ⟨i, hi, rfl, hg⟩
      exact ⟨i, hi, by omega, (pageHasImages_iff _).2 hg⟩
  · show (pagesWithImagesSet 1 doc.pages).sort (· ≤ ·) =
      (pagesWithImagesSet 1 doc'.pages).sort (· ≤ ·)
    rw [pagesWithImagesSet_congr _ _ _ hf]

/-- Witness for C3: a two-page document whose second page has one image
reference (whose preview failed) and whose first has none; the sorted
page list is `[2]` whatever the configuration, here checked against a
variant document whose preview succeeded and with the other image mode. -/
theorem pages_with_images_spec_witness :
    (List.Forall₂
        (fun p q => pageHasImages p = pageHasImages q)
        [⟨some [], some [], some []⟩,
          (⟨some [⟨none⟩], none, none⟩ : Page)]
        [⟨some [], none, none⟩,
          (⟨some [⟨some ['x']⟩, ⟨some ['y']⟩], some [], some []⟩ : Page)]) ∧
      (extractDoc {} ⟨none, [⟨some [], some [], some []⟩,
          ⟨some [⟨none⟩], none, none⟩]⟩).metadata.pages_with_images =
        (extractDoc { detect_first_image_only := false }
          ⟨some ['t'], [⟨some [], none, none⟩,
            ⟨some [⟨some ['x']⟩, ⟨some ['y']⟩], some [], some []⟩]⟩).metadata.pages_with_images :=
  ⟨by decide,
    (pages_with_images_spec {} { detect_first_image_only := false }
        ⟨none, [⟨some [], some [], some []⟩, ⟨some [⟨none⟩], none, none⟩]⟩
        ⟨some ['t'], [⟨some [], none, none⟩,
          ⟨some [⟨some ['x']⟩, ⟨some ['y']⟩], some [], some []⟩]⟩).2.2
      (by decide)⟩

/-- Replacement of a failed block by an empty-content block. -/
def scrubBlock (b : Block) : Block := ⟨some (b.linesOpt.getD [])⟩

/-- Replacement of every failed per-page subsystem call by a successful
call returning an empty collection.  A page processes identically to its
scrubbed form exactly when each local failure contributes nothing. -/
def scrubPage (p : Page) : Page :=
  ⟨some (p.imagesRes.getD []), some (p.linksRes.getD []),
    some ((p.blocksRes.getD []).map scrubBlock)⟩

theorem pageHeadings_scrub (cfg : Config) (n : ℕ) (p : Page) :
    pageHeadings cfg n (scrubPage p) = pageHeadings cfg n p := by
  cases p with
  | mk ir lr br =>
    cases br with
    | none => simp [pageHeadings, scrubPage]
    | some bs =>
      simp only [pageHeadings, scrubPage, Option.getD_some]
      induction bs with
      | nil => simp
      | cons b t ih =>
        simp only [List.map_cons, List.flatMap_cons, ih]
        cases b with
        | mk lo => cases lo <;> simp [scrubBlock]

theorem pageLinks_scrub (n : ℕ) (p : Page) :
    pageLinks n (scrubPage p) = pageLinks n p := by
  cases p with
  | mk ir lr br => cases lr <;> simp [pageLinks, scrubPage]

theorem pagePreviews_scrub (cfg : Config) (n : ℕ) (p : Page) :
    pagePreviews cfg n (scrubPage p) = pagePreviews cfg n p := by
  cases p with
  | mk ir lr br =>
    cases ir with
    | none => cases cfg.detect_first_image_only <;> simp [pagePreviews, scrubPage]
    | some l => simp [pagePreviews, scrubPage]

theorem pageHasImages_scrub (p : Page) :
    pageHasImages (scrubPage p) = pageHasImages p := by
  cases p with
  | mk ir lr br => cases ir <;> simp [pageHasImages, scrubPage]

theorem pagesWithImagesSet_scrub (n : ℕ) (l : List Page) :
    pagesWithImagesSet n (l.map scrubPage) = pagesWithImagesSet n l := by
  induction l generalizing n with
  | nil => rfl
  | cons p t ih =>
    simp only [List.map_cons, pagesWithImagesSet, pageHasImages_scrub, ih]

theorem scrub_flatMaps (cfg : Config) (n : ℕ) (l : List Page) :
    ((enumFrom n (l.map scrubPage)).flatMap
        (fun np => pageHeadings cfg np.1 np.2) =
      (enumFrom n l).flatMap (fun np => pageHeadings cfg np.1 np.2)) ∧
    ((enumFrom n (l.map scrubPage)).flatMap (fun np => pageLinks np.1 np.2) =
      (enumFrom n l).flatMap (fun np => pageLinks np.1 np.2)) ∧
    ((enumFrom n (l.map scrubPage)).flatMap
        (fun np => pagePreviews cfg np.1 np.2) =
      (enumFrom n l).flatMap (fun np => pagePreviews cfg np.1 np.2)) := by
  induction l generalizing n with
  | nil => exact ⟨rfl, rfl, rfl⟩
  | cons p t ih =>
    obtain ⟨h1, h2, h3⟩ := ih (n + 1)
    simp only [List.map_cons, enumFrom, List.flatMap_cons, h1, h2, h3,
      pageHeadings_scrub, pageLinks_scrub, pagePreviews_scrub]
    exact ⟨trivial, trivial, trivial⟩

/-- CLAIM C4.  The call fails with the document-open error exactly when
opening fails, returning no partial result; once the document is open the
call always returns a full result; a page whose per-subsystem calls
failed processes exactly like one whose calls succeeded with empty
content (the failed unit contributes nothing, all other units are
unaffected); and a single failed image reference is simply skipped, the
remaining references still being processed. -/
theorem extract_error_policy (cfg : Config) :
    (∀ e, extract cfg (Except.error e) =
      Except.error ExtractErr.documentOpenError) ∧
    (∀ doc, extract cfg (Except.ok doc) = Except.ok (extractDoc cfg doc)) ∧
    (∀ doc : DocModel,
      extractDoc cfg ⟨doc.title, doc.pages.map scrubPage⟩ = extractDoc cfg doc) ∧
    (∀ (n : ℕ) (p : Page) (refs1 refs2 : List ImgRef),
      cfg.detect_first_image_only = false →
      p.imagesRes = some (refs1 ++ ⟨none⟩ :: refs2) →
      pagePreviews cfg n p =
        pagePreviews cfg n ⟨some (refs1 ++ refs2), p.linksRes, p.blocksRes⟩) := by
  refine ⟨fun e => rfl, fun doc => rfl, fun doc => ?_, ?_⟩
  · obtain ⟨h1, h2, h3⟩ := scrub_flatMaps cfg 1 doc.pages
    simp only [extractDoc, h1, h2, h3, pagesWithImagesSet_scrub]
  · intro n p refs1 refs2 hmode himg
    simp [pagePreviews, himg, hmode]

/-- Witness for C4: in process-all-images mode, a page whose middle image
reference failed yields the same previews as the page without that
reference. -/
theorem extract_error_policy_witness :
    ((false : Bool) = false ∧
      (Page.mk (some [⟨some ['a']⟩, ⟨none⟩, ⟨some ['b']⟩]) none none).imagesRes =
        some ([⟨some ['a']⟩] ++ (⟨none⟩ : ImgRef) :: [⟨some ['b']⟩])) ∧
      pagePreviews { detect_first_image_only := false } 4
          (Page.mk (some [⟨some ['a']⟩, ⟨none⟩, ⟨some ['b']⟩]) none none) =
        pagePreviews { detect_first_image_only := false } 4
          ⟨some ([⟨some ['a']⟩] ++ [⟨some ['b']⟩]), none, none⟩ :=
  ⟨⟨rfl, rfl⟩,
    (extract_error_policy { detect_first_image_only := false }).2.2.2 4
      (Page.mk (some [⟨some ['a']⟩, ⟨none⟩, ⟨some ['b']⟩]) none none)
      [⟨some ['a']⟩] [⟨some ['b']⟩] rfl rfl⟩

theorem mem_of_headOpt {l : Str} {c : Char} (h : l.head? = some c) : c ∈ l := by
  cases l with
  | nil => simp at h
  | cons a t =>
    simp only [List.head?_cons, Option.some.injEq] at h
    exact h ▸ List.mem_cons_self _ _

theorem mem_of_getLastOpt {l : Str} {c : Char} (h : l.getLast? = some c) :
    c ∈ l := by
  obtain ⟨hne, rfl⟩ := List.mem_getLast?_eq_getLast (Option.mem_def.mpr h)
  exact List.getLast_mem hne

theorem pySplitWs_words (s : Str) :
    ∀ w ∈ pySplitWs s, w ≠ [] ∧ ∀ c ∈ w, pyIsSpace c = false := by
  induction s using pySplitWs.induct with
  | case1 => simp [pySplitWs]
  | case2 c t hc ih =>
    rw [pySplitWs, if_pos hc]
    exact ih
  | case3 c t hc ih =>
    intro w hw
    rw [pySplitWs, if_neg hc] at hw
    rcases List.mem_cons.1 hw with rfl | hw
    · refine ⟨by simp, fun d hd => ?_⟩
      rcases List.mem_cons.1 hd with rfl | hd
      · exact Bool.not_eq_true _ ▸ eq_false_of_ne_true hc
      · simpa using List.mem_takeWhile_imp hd
    · exact ih w hw

theorem pySplitWs_flatten (s : Str) :
    (pySplitWs s).flatten = s.filter (fun c => !pyIsSpace c) := by
  induction s using pySplitWs.induct with
  | case1 => simp [pySplitWs]
  | case2 c t hc ih =>
    rw [pySplitWs, if_pos hc, ih, List.filter_cons]
    simp [hc]
  | case3 c t hc ih =>
    rw [pySplitWs, if_neg hc, List.flatten_cons, ih,
      List.filter_cons_of_pos (by simpa using hc), List.cons_append]
    congr 1
    conv_rhs => rw [← List.takeWhile_append_dropWhile
      (p := fun d => !pyIsSpace d) (l := t)]
    rw [List.filter_append]
    congr 1
    exact (List.filter_eq_self.2 (fun a ha => by
      simpa using List.mem_takeWhile_imp (p := fun d => !pyIsSpace d) ha)).symm

theorem chainNoDoubleSpace_of_all (l : Str)
    (h : ∀ c ∈ l, pyIsSpace c = false) :
    List.Chain' (fun a b => ¬(pyIsSpace a = true ∧ pyIsSpace b = true)) l := by
  refine List.Pairwise.chain' ?_
  induction l with
  | nil => exact List.Pairwise.nil
  | cons a t ih =>
    refine List.pairwise_cons.2 ⟨fun b _ hab => ?_, ?_⟩
    · rw [h a (List.mem_cons_self _ _)] at hab
      exact Bool.false_ne_true hab.1
    · exact ih (fun c hc => h c (List.mem_cons_of_mem _ hc))

theorem joinWords_props (ws : List Str)
    (hw : ∀ w ∈ ws, w ≠ [] ∧ ∀ c ∈ w, pyIsSpace c = false) :
    (∀ c ∈ joinWords ws, pyIsSpace c = true → c = ' ') ∧
    (∀ c, (joinWords ws).head? = some c → pyIsSpace c = false) ∧
    (∀ c, (joinWords ws).getLast? = some c → pyIsSpace c = false) ∧
    List.Chain' (fun a b => ¬(pyIsSpace a = true ∧ pyIsSpace b = true))
      (joinWords ws) := by
  induction ws with
  | nil => simp [joinWords]
  | cons w ws ih =>
    cases ws with
    | nil =>
      obtain ⟨-, hword⟩ := hw w (List.mem_cons_self _ _)
      refine ⟨fun c hc hs => absurd (hword c hc) (by simp [hs]), ?_, ?_, ?_⟩
      · exact fun c hc => hword c (mem_of_headOpt hc)
      · exact fun c hc => hword c (mem_of_getLastOpt hc)
      · exact chainNoDoubleSpace_of_all _ hword
    | cons x xs =>
      obtain ⟨hwne, hword⟩ := hw w (List.mem_cons_self _ _)
      have ihx := ih (fun u hu => hw u (List.mem_cons_of_mem _ hu))
      have hjne : joinWords (x :: xs) ≠ [] := by
        obtain ⟨hxne, -⟩ := hw x (List.mem_cons_of_mem _ (List.mem_cons_self _ _))
        cases xs with
        | nil => simpa [joinWords] using hxne
        | cons y ys => simp [joinWords]
      have hje : joinWords (w :: x :: xs) = w ++ ' ' :: joinWords (x :: xs) := rfl
      rw [hje]
      refine ⟨?_, ?_, ?_, ?_⟩
      · intro c hc hs
        rcases List.mem_append.1 hc with hc | hc
        · exact absurd (hword c hc) (by simp [hs])
        · rcases List.mem_cons.1 hc with rfl | hc
          · rfl
          · exact ihx.1 c hc hs
      · intro c hc
        cases w with
        | nil => exact absurd rfl hwne
        | cons a t =>
          simp only [List.cons_append, List.head?_cons, Option.some.injEq] at hc
          exact hc ▸ hword a (List.mem_cons_self _ _)
      · intro c hc
        rw [List.getLast?_append_of_ne_nil w (List.cons_ne_nil _ _)] at hc
        rw [show (' ' :: joinWords (x :: xs)) = [' '] ++ joinWords (x :: xs)
          from rfl, List.getLast?_append_of_ne_nil [' '] hjne] at hc
        exact ihx.2.2.1 c hc
      · rw [List.chain'_append]
        refine ⟨chainNoDoubleSpace_of_all _ hword, ?_, ?_⟩
        · refine List.chain'_cons'.2 ⟨fun y hy => ?_, ihx.2.2.2⟩
          intro hcon
          rw [ihx.2.1 y (Option.mem_def.1 hy)] at hcon
          exact Bool.false_ne_true hcon.2
        · intro a ha y hy hcon
          rw [hword a (mem_of_getLastOpt (Option.mem_def.1 ha))] at hcon
          exact Bool.false_ne_true hcon.1

theorem dropWhile_eq_self_of_head (p : Char → Bool) (l : Str)
    (h : ∀ c, l.head? = some c → p c = false) : l.dropWhile p = l := by
  cases l with
  | nil => rfl
  | cons a t => simp [List.dropWhile_cons, h a rfl]

theorem pyStrip_eq_self (s : Str)
    (hh : ∀ c, s.head? = some c → pyIsSpace c = false)
    (hl : ∀ c, s.getLast? = some c → pyIsSpace c = false) : pyStrip s = s := by
  unfold pyStrip
  rw [dropWhile_eq_self_of_head _ _ hh,
    dropWhile_eq_self_of_head _ _
      (fun c hc => hl c (List.head?_reverse s ▸ hc)),
    List.reverse_reverse]

theorem filter_dropWhile_self (p : Char → Bool) (l : Str) :
    (l.dropWhile p).filter (fun c => !p c) = l.filter (fun c => !p c) := by
  induction l with
  | nil => rfl
  | cons a t ih =>
    by_cases hp : p a
    · rw [List.dropWhile_cons, if_pos hp, ih, List.filter_cons]
      simp [hp]
    · rw [List.dropWhile_cons, if_neg hp]

theorem filter_pyStrip (s : Str) :
    (pyStrip s).filter (fun c => !pyIsSpace c) =
      s.filter (fun c => !pyIsSpace c) := by
  unfold pyStrip
  rw [List.filter_reverse, filter_dropWhile_self, List.filter_reverse,
    List.reverse_reverse, filter_dropWhile_self]

theorem filter_joinWords (ws : List Str)
    (hw : ∀ w ∈ ws, w ≠ [] ∧ ∀ c ∈ w, pyIsSpace c = false) :
    (joinWords ws).filter (fun c => !pyIsSpace c) = ws.flatten := by
  induction ws with
  | nil => rfl
  | cons w ws ih =>
    have hword := (hw w (List.mem_cons_self _ _)).2
    cases ws with
    | nil =>
      show w.filter _ = w ++ []
      rw [List.append_nil]
      exact List.filter_eq_self.2 (fun a ha => by simp [hword a ha])
    | cons x xs =>
      have hje : joinWords (w :: x :: xs) = w ++ ' ' :: joinWords (x :: xs) := rfl
      rw [hje, List.filter_append, List.filter_cons,
        List.filter_eq_self.2 (fun a ha => by simp [hword a ha]),
        ih (fun u hu => hw u (List.mem_cons_of_mem _ hu))]
      simp [pyIsSpace, List.flatten_cons]

theorem normalizeText_props (s : Str) :
    (∀ c ∈ normalizeText s, pyIsSpace c = true → c = ' ') ∧
    (∀ c, (normalizeText s).head? = some c → pyIsSpace c = false) ∧
    (∀ c, (normalizeText s).getLast? = some c → pyIsSpace c = false) ∧
    List.Chain' (fun a b => ¬(pyIsSpace a = true ∧ pyIsSpace b = true))
      (normalizeText s) ∧
    (normalizeText s).filter (fun c => !pyIsSpace c) =
      s.filter (fun c => !pyIsSpace c) := by
  have hw := pySplitWs_words s
  have hj := joinWords_props _ hw
  have hid : normalizeText s = joinWords (pySplitWs s) :=
    pyStrip_eq_self _ hj.2.1 hj.2.2.1
  rw [hid]
  exact ⟨hj.1, hj.2.1, hj.2.2.1, hj.2.2.2,
    (filter_joinWords _ hw).trans (pySplitWs_flatten s)⟩

/-- CLAIM C5 counterexample.  The candidate run text is NOT the plain
concatenation of the span texts: spans "a" and "b" produce the stored
text "a b" (the code joins with a single-space separator), while the
concatenation — even after normalization — is "ab". -/
theorem line_text_counterexample :
    lineHeading {} 1 ⟨[⟨['a'], SizeVal.num 20⟩, ⟨['b'], SizeVal.num 20⟩]⟩ =
      some ⟨Level.H1, ['a', ' ', 'b'], 1, 20⟩ ∧
    (['a', ' ', 'b'] : Str) ≠ ['a'] ++ ['b'] ∧
    normalizeText (['a'] ++ ['b']) = ['a'] ++ ['b'] := by
  refine ⟨?_, by decide, ?_⟩
  · have hlm : lineMaxFont [⟨['a'], SizeVal.num 20⟩, ⟨['b'], SizeVal.num 20⟩] =
        20 := by decide
    have hcl : classify 18 14 10 (20 : ℚ) = some Level.H1 := by decide
    have hr : round2 (20 : ℚ) = 20 := by norm_num [round2, roundHalfEven]
    have hn : normalizeText (pyStrip (joinWords
        (List.map Span.text
          [⟨['a'], SizeVal.num 20⟩, ⟨['b'], SizeVal.num 20⟩]))) =
        ['a', ' ', 'b'] := by
      simp +decide [normalizeText, pySplitWs, joinWords, pyStrip]
    unfold lineHeading
    rw [if_neg (by decide), if_neg (by decide)]
    simp only [hlm, hcl, hn, hr, Option.map_some']
  · simp +decide [normalizeText, pySplitWs, joinWords, pyStrip]

/-- CLAIM C5 (amended).  The candidate run text is the span texts joined
with a single space between consecutive spans (in span order), then
stripped; lines whose joined text is empty after stripping produce
nothing; and the text stored in a Heading is that run text normalized:
every whitespace character left is a single isolated space, no whitespace
remains at either end, and the non-whitespace characters are exactly
those of the joined text, in order. -/
theorem line_text_pipeline (cfg : Config) (n : ℕ) (line : Line) :
    (pyStrip (joinWords (line.spans.map Span.text)) = [] →
      lineHeading cfg n line = none) ∧
    (∀ h, lineHeading cfg n line = some h →
      h.text = normalizeText (pyStrip (joinWords (line.spans.map Span.text))) ∧
      (∀ c ∈ h.text, pyIsSpace c = true → c = ' ') ∧
      (∀ c, h.text.head? = some c → pyIsSpace c = false) ∧
      (∀ c, h.text.getLast? = some c → pyIsSpace c = false) ∧
      List.Chain' (fun a b => ¬(pyIsSpace a = true ∧ pyIsSpace b = true))
        h.text ∧
      h.text.filter (fun c => !pyIsSpace c) =
        (joinWords (line.spans.map Span.text)).filter
          (fun c => !pyIsSpace c)) := by
  constructor
  · intro hempty
    unfold lineHeading
    by_cases hsp : line.spans = []
    · rw [if_pos hsp]
    · rw [if_neg hsp, if_pos hempty]
  · intro h hsome
    unfold lineHeading at hsome
    by_cases hsp : line.spans = []
    · rw [if_pos hsp] at hsome
      exact absurd hsome (by simp)
    · rw [if_neg hsp] at hsome
      by_cases hte : pyStrip (joinWords (line.spans.map Span.text)) = []
      · rw [if_pos hte] at hsome
        exact absurd hsome (by simp)
      · rw [if_neg hte] at hsome
        cases hcl : classify cfg.min_h1 cfg.min_h2 cfg.min_h3
            (lineMaxFont line.spans) with
        | none => rw [hcl] at hsome; exact absurd hsome (by simp)
        | some lvl =>
          rw [hcl] at hsome
          simp only [Option.map_some', Option.some.injEq] at hsome
          obtain ⟨hp1, hp2, hp3, hp4, hp5⟩ :=
            normalizeText_props (pyStrip (joinWords (line.spans.map Span.text)))
          refine ⟨by rw [← hsome], ?_, ?_, ?_, ?_, ?_⟩
          · rw [← hsome]; exact hp1
          · rw [← hsome]; exact hp2
          · rw [← hsome]; exact hp3
          · rw [← hsome]; exact hp4
          · rw [← hsome]
            show (normalizeText _).filter _ = _
            rw [hp5, filter_pyStrip]

/-- Witness for C5: a single span whose text carries a leading space; the
emitted heading stores the normalization of the stripped joined text. -/
theorem line_text_pipeline_witness :
    lineHeading {} 1 (Line.mk [Span.mk [' ', 'H', 'i'] (SizeVal.num 19)]) =
      some (Heading.mk Level.H1 ['H', 'i'] 1 19) ∧
    (Heading.mk Level.H1 ['H', 'i'] 1 19).text =
      normalizeText (pyStrip (joinWords
        ((Line.mk [Span.mk [' ', 'H', 'i'] (SizeVal.num 19)]).spans.map
          Span.text))) := by
  have hval : lineHeading {} 1
      (Line.mk [Span.mk [' ', 'H', 'i'] (SizeVal.num 19)]) =
      some (Heading.mk Level.H1 ['H', 'i'] 1 19) := by
    have hlm : lineMaxFont [Span.mk [' ', 'H', 'i'] (SizeVal.num 19)] = 19 := by
      decide
    have hcl : classify 18 14 10 (19 : ℚ) = some Level.H1 := by decide
    have hr : round2 (19 : ℚ) = 19 := by norm_num [round2, roundHalfEven]
    have hn : normalizeText (pyStrip (joinWords
        (List.map Span.text [Span.mk [' ', 'H', 'i'] (SizeVal.num 19)]))) =
        ['H', 'i'] := by
      simp +decide [normalizeText, pySplitWs, joinWords, pyStrip]
    unfold lineHeading
    rw [if_neg (by decide), if_neg (by decide)]
    simp only [hlm, hcl, hn, hr, Option.map_some']
  exact ⟨hval, ((line_text_pipeline {} 1 _).2 _ hval).1⟩

theorem foldl_max_spec (a : ℚ) (l : List ℚ) :
    a ≤ l.foldl max a ∧ (∀ q ∈ l, q ≤ l.foldl max a) ∧
      (l.foldl max a = a ∨ l.foldl max a ∈ l) := by
  induction l generalizing a with
  | nil => simp
  | cons b t ih =>
    obtain ⟨h1, h2, h3⟩ := ih (max a b)
    rw [List.foldl_cons]
    refine ⟨le_trans (le_max_left a b) h1, ?_, ?_⟩
    · intro q hq
      rcases List.mem_cons.1 hq with rfl | hq
      · exact le_trans (le_max_right a q) h1
      · exact h2 q hq
    · rcases h3 with h3 | h3
      · rcases max_choice a b with hm | hm
        · exact Or.inl (h3.trans hm)
        · exact Or.inr (by rw [h3, hm]; exact List.mem_cons_self _ _)
      · exact Or.inr (List.mem_cons_of_mem _ h3)

/-- The numeric font size of a span, zero when the field is absent; this
is the value `float(span.get("size", 0))` yields on a span whose size
does not raise. -/
def numSize (sp : Span) : ℚ :=
  match sp.size with
  | .num q => q
  | _ => 0

theorem collectSizes_ok (spans : List Span)
    (hall : ∀ sp ∈ spans, ∃ q, sp.size = SizeVal.num q) :
    collectSizes spans = Except.ok (spans.map numSize) := by
  induction spans with
  | nil => rfl
  | cons sp t ih =>
    obtain ⟨q, hq⟩ := hall sp (List.mem_cons_self _ _)
    have hnum : numSize sp = q := by simp [numSize, hq]
    rw [collectSizes, hq,
      ih (fun u hu => hall u (List.mem_cons_of_mem _ hu)), List.map_cons, hnum]
    rfl

/-- CLAIM C6.  On a line whose spans all carry a numeric size, the
dominant font size is the maximum of the spans' sizes (it is one of them
and bounds them all); the classifier is applied to this unrounded
maximum, and the heading that may be emitted stores `round2` of it. -/
theorem dominant_font_size (cfg : Config) (n : ℕ) (line : Line)
    (hne : line.spans ≠ [])
    (hall : ∀ sp ∈ line.spans, ∃ q, sp.size = SizeVal.num q) :
    (lineMaxFont line.spans ∈ line.spans.map numSize ∧
      ∀ q ∈ line.spans.map numSize, q ≤ lineMaxFont line.spans) ∧
    lineHeading cfg n line =
      (if pyStrip (joinWords (line.spans.map Span.text)) = [] then none
       else
        (classify cfg.min_h1 cfg.min_h2 cfg.min_h3
            (lineMaxFont line.spans)).map
          (fun lvl =>
            { level := lvl,
              text := normalizeText
                (pyStrip (joinWords (line.spans.map Span.text))),
              page := n,
              font_size := round2 (lineMaxFont line.spans) })) := by
  constructor
  · have hok := collectSizes_ok line.spans hall
    cases hsp : line.spans with
    | nil => exact absurd hsp hne
    | cons sp t =>
      rw [hsp] at hok
      have hlm : lineMaxFont (sp :: t) =
          (t.map numSize).foldl max (numSize sp) := by
        rw [lineMaxFont, hok, List.map_cons]
      obtain ⟨h1, h2, h3⟩ := foldl_max_spec (numSize sp) (t.map numSize)
      constructor
      · rw [List.map_cons, hlm]
        rcases h3 with h3 | h3
        · rw [h3]; exact List.mem_cons_self _ _
        · exact List.mem_cons_of_mem _ h3
      · intro q hq
        rw [List.map_cons] at hq
        rw [hlm]
        rcases List.mem_cons.1 hq with rfl | hq
        · exact h1
        · exact h2 q hq
  · unfold lineHeading
    rw [if_neg hne]

/-- Witness for C6 on a two-span line with sizes 20 and 15.5: the
dominant size is a member of the size list. -/
theorem dominant_font_size_witness :
    (([Span.mk ['A'] (SizeVal.num 20), Span.mk ['B'] (SizeVal.num (31 / 2))] :
        List Span) ≠ [] ∧
      (∀ sp ∈ ([Span.mk ['A'] (SizeVal.num 20),
          Span.mk ['B'] (SizeVal.num (31 / 2))] : List Span),
        ∃ q, sp.size = SizeVal.num q)) ∧
    lineMaxFont (Line.mk [Span.mk ['A'] (SizeVal.num 20),
        Span.mk ['B'] (SizeVal.num (31 / 2))]).spans ∈
      (Line.mk [Span.mk ['A'] (SizeVal.num 20),
        Span.mk ['B'] (SizeVal.num (31 / 2))]).spans.map numSize :=
  ⟨⟨by simp, fun sp hsp => by
      rcases List.mem_cons.1 hsp with rfl | hsp
      · exact ⟨20, rfl⟩
      · rcases List.mem_cons.1 hsp with rfl | hsp
        · exact ⟨31 / 2, rfl⟩
        · exact absurd hsp (List.not_mem_nil _)⟩,
    ((dominant_font_size {} 1
        (Line.mk [Span.mk ['A'] (SizeVal.num 20),
          Span.mk ['B'] (SizeVal.num (31 / 2))])
        (by simp)
        (fun sp hsp => by
          rcases List.mem_cons.1 hsp with rfl | hsp
          · exact ⟨20, rfl⟩
          · rcases List.mem_cons.1 hsp with rfl | hsp
            · exact ⟨31 / 2, rfl⟩
            · exact absurd hsp (List.not_mem_nil _))).1).1⟩

theorem lineMaxFont_zero_of_unusable (spans : List Span)
    (hall : ∀ sp ∈ spans,
      sp.size = SizeVal.missing ∨ sp.size = SizeVal.malformed) :
    lineMaxFont spans = 0 := by
  have hres : collectSizes spans = Except.error () ∨
      collectSizes spans = Except.ok (spans.map (fun _ => (0 : ℚ))) := by
    induction spans with
    | nil => exact Or.inr rfl
    | cons sp t ih =>
      rcases hall sp (List.mem_cons_self _ _) with hs | hs
      · rcases ih (fun u hu => hall u (List.mem_cons_of_mem _ hu)) with he | ho
        · exact Or.inl (by rw [collectSizes, hs, he]; rfl)
        · exact Or.inr (by rw [collectSizes, hs, ho, List.map_cons]; rfl)
      · exact Or.inl (by rw [collectSizes, hs]; rfl)
  rcases hres with he | ho
  · rw [lineMaxFont, he]
  · cases hsp : spans with
    | nil => rfl
    | cons sp t =>
      rw [hsp] at ho
      rw [lineMaxFont, ho, List.map_cons]
      show List.foldl max ((fun _ => (0 : ℚ)) sp) (t.map (fun _ => (0 : ℚ))) = 0
      obtain ⟨-, -, h3⟩ :=
        foldl_max_spec ((fun _ => (0 : ℚ)) sp) (t.map (fun _ => (0 : ℚ)))
      rcases h3 with h3 | h3
      · exact h3
      · obtain ⟨a, -, heq⟩ := List.mem_map.1 h3
        exact heq.symm

/-- CLAIM C10.  A line none of whose spans has a usable numeric size gets
dominant font size `0`: the missing field defaults to `0` and a malformed
value makes the guarded maximum fall back to `0.0` instead of raising.
Under strictly positive thresholds such a line never produces a
heading. -/
theorem unusable_sizes_no_heading (cfg : Config) (n : ℕ) (line : Line)
    (hall : ∀ sp ∈ line.spans,
      sp.size = SizeVal.missing ∨ sp.size = SizeVal.malformed)
    (hpos : 0 < cfg.min_h1 ∧ 0 < cfg.min_h2 ∧ 0 < cfg.min_h3) :
    lineMaxFont line.spans = 0 ∧ lineHeading cfg n line = none := by
  have hz := lineMaxFont_zero_of_unusable line.spans hall
  refine ⟨hz, ?_⟩
  unfold lineHeading
  split_ifs with h1 h2
  · rfl
  · rfl
  · rw [hz]
    unfold classify
    rw [if_neg (not_le.2 hpos.1), if_neg (not_le.2 hpos.2.1),
      if_neg (not_le.2 hpos.2.2)]
    rfl

/-- Witness for C10: a line with one size-less span and one malformed
span yields dominant size 0 and no heading at the default thresholds. -/
theorem unusable_sizes_no_heading_witness :
    ((∀ sp ∈ (Line.mk [Span.mk ['x'] SizeVal.missing,
        Span.mk ['y'] SizeVal.malformed]).spans,
      sp.size = SizeVal.missing ∨ sp.size = SizeVal.malformed) ∧
      ((0 : ℚ) < 18 ∧ (0 : ℚ) < 14 ∧ (0 : ℚ) < 10)) ∧
    (lineMaxFont (Line.mk [Span.mk ['x'] SizeVal.missing,
        Span.mk ['y'] SizeVal.malformed]).spans = 0 ∧
      lineHeading {} 1 (Line.mk [Span.mk ['x'] SizeVal.missing,
        Span.mk ['y'] SizeVal.malformed]) = none) :=
  ⟨⟨fun sp hsp => by
      rcases List.mem_cons.1 hsp with rfl | hsp
      · exact Or.inl rfl
      · rcases List.mem_cons.1 hsp with rfl | hsp
        · exact Or.inr rfl
        · exact absurd hsp (List.not_mem_nil _),
    by norm_num⟩,
    unusable_sizes_no_heading {} 1 _
      (fun sp hsp => by
        rcases List.mem_cons.1 hsp with rfl | hsp
        · exact Or.inl rfl
        · rcases List.mem_cons.1 hsp with rfl | hsp
          · exact Or.inr rfl
          · exact absurd hsp (List.not_mem_nil _))
      (by norm_num)⟩

/-- CLAIM C7 counterexample.  A metadata title that is non-blank but
carries surrounding whitespace is returned stripped, so the returned
title does not equal the metadata title. -/
theorem title_resolution_counterexample :
    pyStrip [' ', 'h', ' '] ≠ [] ∧
    resolveTitle (some [' ', 'h', ' ']) ≠ [' ', 'h', ' '] := by decide

/-- CLAIM C7 (amended).  The returned title is never empty; when the
metadata title is present and non-blank after stripping, the returned
title is the STRIPPED metadata title; otherwise it is the sentinel
"Untitled". -/
theorem title_resolution (t : Option Str) :
    resolveTitle t ≠ [] ∧
    (∀ s, t = some s → pyStrip s ≠ [] → resolveTitle t = pyStrip s) ∧
    (pyStrip (t.getD []) = [] → resolveTitle t = "Untitled".toList) := by
  refine ⟨?_, ?_, ?_⟩
  · unfold resolveTitle
    split_ifs with h
    · decide
    · exact h
  · intro s hs hne
    subst hs
    unfold resolveTitle
    simp only [Option.getD_some]
    rw [if_neg hne]
  · intro h
    unfold resolveTitle
    rw [if_pos h]

/-- Witness for C7: the padded title " h " resolves to its stripped
form. -/
theorem title_resolution_witness :
    ((some [' ', 'h', ' '] : Option Str) = some [' ', 'h', ' '] ∧
      pyStrip [' ', 'h', ' '] ≠ []) ∧
    resolveTitle (some [' ', 'h', ' ']) = pyStrip [' ', 'h', ' '] :=
  ⟨⟨rfl, by decide⟩,
    (title_resolution (some [' ', 'h', ' '])).2.1 _ rfl (by decide)⟩

/-- CLAIM C8.  In single-preview mode (the default) at most one preview
entry is produced per page — only the first image reference is
processed; with the mode off, every reference of the page is processed
independently, one preview attempt (successful exactly when the
reference's pipeline succeeded) per reference, in order. -/
theorem image_mode_spec (cfg : Config) :
    (∀ (n : ℕ) (p : Page), cfg.detect_first_image_only = true →
      (pagePreviews cfg n p).length ≤ 1 ∧
      (∀ imgs, p.imagesRes = some imgs →
        pagePreviews cfg n p =
          (imgs.take 1).filterMap
            (fun r => r.result.map (fun s => ⟨n, s⟩)))) ∧
    (∀ (n : ℕ) (p : Page) (refs : List ImgRef),
      cfg.detect_first_image_only = false → p.imagesRes = some refs →
      pagePreviews cfg n p =
        refs.filterMap (fun r => r.result.map (fun s => ⟨n, s⟩))) := by
  constructor
  · intro n p hmode
    constructor
    · cases hp : p.imagesRes with
      | none =>
        have heq : pagePreviews cfg n p = [] := by
          unfold pagePreviews; rw [hp]
        rw [heq]
        exact Nat.zero_le 1
      | some imgs =>
        have heq : pagePreviews cfg n p =
            (imgs.take 1).filterMap
              (fun r => r.result.map (fun s => ⟨n, s⟩)) := by
          unfold pagePreviews
          rw [hp, hmode]
          rfl
        rw [heq]
        calc ((imgs.take 1).filterMap
              (fun r => r.result.map (fun s => (⟨n, s⟩ : PreviewEntry)))).length
            ≤ (imgs.take 1).length := List.length_filterMap_le _ _
          _ ≤ 1 := by
              rw [List.length_take]
              exact Nat.min_le_left _ _
    · intro imgs himgs
      unfold pagePreviews
      rw [himgs, hmode]
      rfl
  · intro n p refs hmode himg
    unfold pagePreviews
    rw [himg, hmode]
    rfl

/-- Witness for C8: with the default configuration (single-preview mode
on), a page holding two successful image references produces at most one
preview. -/
theorem image_mode_spec_witness :
    ({} : Config).detect_first_image_only = true ∧
    (pagePreviews {} 3
        (Page.mk (some [ImgRef.mk (some ['a']), ImgRef.mk (some ['b'])])
          none none)).length ≤ 1 :=
  ⟨rfl,
    (((image_mode_spec {}).1 3
      (Page.mk (some [ImgRef.mk (some ['a']), ImgRef.mk (some ['b'])])
        none none) rfl)).1⟩

/-- The `round_aspect` helper inside PIL's `Image.thumbnail` (the resize
routine `_make_image_preview` delegates to): pick whichever of the floor
and ceiling of `number` minimises `key` (the floor on ties, as Python's
two-argument `min` keeps its first argument), but never go below 1. -/
def round_aspect (number : ℚ) (key : ℤ → ℚ) : ℤ :=
  max (if key ⌊number⌋ ≤ key ⌈number⌉ then ⌊number⌋ else ⌈number⌉) 1

/-- The size computation of PIL's `Image.thumbnail` for a `w × h` image
and a square bound `(m, m)`, in exact rational arithmetic (PIL uses
binary floats for the aspect ratio): no resize when the image already
fits, otherwise the bound is kept on the larger axis and the other axis
is rounded from the exact aspect-preserving value. -/
def thumbnailSize (w h m : ℕ) : ℕ × ℕ :=
  if w ≤ m ∧ h ≤ m then (w, h)
  else if (w : ℚ) / (h : ℚ) ≤ 1 then
    ((round_aspect ((m : ℚ) * ((w : ℚ) / (h : ℚ)))
      (fun k => |(w : ℚ) / (h : ℚ) - (k : ℚ) / (m : ℚ)|)).toNat, m)
  else
    (m, (round_aspect ((m : ℚ) / ((w : ℚ) / (h : ℚ)))
      (fun k => if k = 0 then 0
        else |(w : ℚ) / (h : ℚ) - (m : ℚ) / (k : ℚ)|)).toNat)

/-- The fixed data-URI prelude of `_make_image_preview`, declaring the
PNG format and base64 encoding. -/
def dataUriHead : Str := "data:image/png;base64,".toList

/-- The `_make_image_preview` helper of `utils.py`, lines 32-43, on a
decoded raster of dimensions `img`: thumbnail it to at most
`maxSize × maxSize`, re-encode as PNG (`pngEncode` stands for PIL's PNG
writer), base64-encode, and wrap in a data URI. -/
def makeImagePreview (pngEncode : ℕ × ℕ → Str) (b64encode : Str → Str)
    (maxSize : ℕ) (img : ℕ × ℕ) : Str :=
  dataUriHead ++ b64encode (pngEncode (thumbnailSize img.1 img.2 maxSize))

theorem round_aspect_bounds (v : ℚ) (key : ℤ → ℚ) (hv : 0 < v) :
    1 ≤ round_aspect v key ∧
    |((round_aspect v key : ℤ) : ℚ) - v| ≤ 1 ∧
    ∀ M : ℤ, v ≤ (M : ℚ) → round_aspect v key ≤ M := by
  have hfc : ⌊v⌋ ≤ ⌈v⌉ := Int.floor_le_ceil v
  set c : ℤ := if key ⌊v⌋ ≤ key ⌈v⌉ then ⌊v⌋ else ⌈v⌉ with hcdef
  have hra : round_aspect v key = max c 1 := rfl
  have hcl : ⌊v⌋ ≤ c := by
    rw [hcdef]
    split_ifs
    · exact le_refl _
    · exact hfc
  have hcu : c ≤ ⌈v⌉ := by
    rw [hcdef]
    split_ifs
    · exact hfc
    · exact le_refl _
  refine ⟨by rw [hra]; exact le_max_right c 1, ?_, ?_⟩
  · rw [hra]
    rcases le_or_lt 1 c with h1 | h1
    · rw [max_eq_left h1]
      have hfl : v - 1 < ((⌊v⌋ : ℤ) : ℚ) := Int.sub_one_lt_floor v
      have hcc : ((⌈v⌉ : ℤ) : ℚ) < v + 1 := Int.ceil_lt_add_one v
      have hclq : ((⌊v⌋ : ℤ) : ℚ) ≤ (c : ℚ) := by exact_mod_cast hcl
      have hcuq : (c : ℚ) ≤ ((⌈v⌉ : ℤ) : ℚ) := by exact_mod_cast hcu
      rw [abs_le]
      constructor <;> linarith
    · rw [max_eq_right (le_of_lt h1)]
      have hfl0 : ⌊v⌋ ≤ 0 := by omega
      have hq : ((⌊v⌋ : ℤ) : ℚ) ≤ 0 := by exact_mod_cast hfl0
      have hlt := Int.lt_floor_add_one v
      rw [abs_le]
      constructor <;> push_cast <;> linarith
  · intro M hM
    rw [hra]
    have hcM : c ≤ M := le_trans hcu (Int.ceil_le.2 hM)
    have h0M : (0 : ℤ) < M := by exact_mod_cast lt_of_lt_of_le hv hM
    exact max_le hcM (by omega)

/-- CLAIM C9.  For a decoded `w × h` image and bound `m ≥ 1`: neither
thumbnail dimension exceeds `m`; the aspect ratio is preserved within one
pixel (either the image is untouched, or the bound axis is exactly `m`
and the other axis is within one pixel of the exact aspect-preserving
value); and the preview delivered is the base64 of the PNG re-encoding
wrapped under the `data:image/png;base64,` head. -/
theorem thumbnail_spec (w h m : ℕ) (hw : 1 ≤ w) (hh : 1 ≤ h) (hm : 1 ≤ m)
    (pngEncode : ℕ × ℕ → Str) (b64encode : Str → Str) :
    (thumbnailSize w h m).1 ≤ m ∧ (thumbnailSize w h m).2 ≤ m ∧
    (((thumbnailSize w h m).1 = w ∧ (thumbnailSize w h m).2 = h) ∨
      ((thumbnailSize w h m).2 = m ∧
        |((thumbnailSize w h m).1 : ℚ) - (m : ℚ) * w / h| ≤ 1) ∨
      ((thumbnailSize w h m).1 = m ∧
        |((thumbnailSize w h m).2 : ℚ) - (m : ℚ) * h / w| ≤ 1)) ∧
    makeImagePreview pngEncode b64encode m (w, h) =
      dataUriHead ++ b64encode (pngEncode (thumbnailSize w h m)) := by
  have hw' : (0 : ℚ) < w := by exact_mod_cast hw
  have hh' : (0 : ℚ) < h := by exact_mod_cast hh
  have hm' : (0 : ℚ) < m := by exact_mod_cast hm
  have hmain : (thumbnailSize w h m).1 ≤ m ∧ (thumbnailSize w h m).2 ≤ m ∧
      (((thumbnailSize w h m).1 = w ∧ (thumbnailSize w h m).2 = h) ∨
        ((thumbnailSize w h m).2 = m ∧
          |((thumbnailSize w h m).1 : ℚ) - (m : ℚ) * w / h| ≤ 1) ∨
        ((thumbnailSize w h m).1 = m ∧
          |((thumbnailSize w h m).2 : ℚ) - (m : ℚ) * h / w| ≤ 1)) := by
    unfold thumbnailSize
    split_ifs with hb ha
    · exact ⟨hb.1, hb.2, Or.inl ⟨rfl, rfl⟩⟩
    · set v : ℚ := (m : ℚ) * ((w : ℚ) / (h : ℚ)) with hvdef
      have hv : 0 < v := mul_pos hm' (div_pos hw' hh')
      have hvm : v ≤ ((m : ℤ) : ℚ) := by
        have := mul_le_of_le_one_right (le_of_lt hm') ha
        rw [hvdef]
        push_cast
        linarith
      obtain ⟨hx1, hx2, hx3⟩ := round_aspect_bounds v
        (fun k => |(w : ℚ) / (h : ℚ) - (k : ℚ) / (m : ℚ)|) hv
      have hxm := hx3 (m : ℤ) hvm
      have hx0 : (0 : ℤ) ≤ round_aspect v
          (fun k => |(w : ℚ) / (h : ℚ) - (k : ℚ) / (m : ℚ)|) :=
        le_trans zero_le_one hx1
      refine ⟨Int.toNat_le.2 hxm, le_refl m, Or.inr (Or.inl ⟨rfl, ?_⟩)⟩
      have hcast : (((round_aspect v
            (fun k => |(w : ℚ) / (h : ℚ) - (k : ℚ) / (m : ℚ)|)).toNat : ℕ) :
          ℚ) = ((round_aspect v
            (fun k => |(w : ℚ) / (h : ℚ) - (k : ℚ) / (m : ℚ)|) : ℤ) : ℚ) := by
        exact_mod_cast congrArg (fun z : ℤ => (z : ℚ))
          (Int.toNat_of_nonneg hx0)
      rw [hcast]
      have hveqA : v = (m : ℚ) * w / h := by rw [hvdef, mul_div_assoc]
      rw [← hveqA]
      exact hx2
    · set v : ℚ := (m : ℚ) / ((w : ℚ) / (h : ℚ)) with hvdef
      have haspect : (1 : ℚ) < (w : ℚ) / (h : ℚ) := not_le.1 ha
      have hv : 0 < v := div_pos hm' (lt_trans zero_lt_one haspect)
      have hvm : v ≤ ((m : ℤ) : ℚ) := by
        have := div_le_self (le_of_lt hm') (le_of_lt haspect)
        rw [hvdef]
        push_cast
        linarith
      obtain ⟨hy1, hy2, hy3⟩ := round_aspect_bounds v
        (fun k => if k = 0 then 0
          else |(w : ℚ) / (h : ℚ) - (m : ℚ) / (k : ℚ)|) hv
      have hym := hy3 (m : ℤ) hvm
      have hy0 : (0 : ℤ) ≤ round_aspect v
          (fun k => if k = 0 then 0
            else |(w : ℚ) / (h : ℚ) - (m : ℚ) / (k : ℚ)|) :=
        le_trans zero_le_one hy1
      refine ⟨le_refl m, Int.toNat_le.2 hym, Or.inr (Or.inr ⟨rfl, ?_⟩)⟩
      have hcast : (((round_aspect v
            (fun k => if k = 0 then 0
              else |(w : ℚ) / (h : ℚ) - (m : ℚ) / (k : ℚ)|)).toNat : ℕ) :
          ℚ) = ((round_aspect v
            (fun k => if k = 0 then 0
              else |(w : ℚ) / (h : ℚ) - (m : ℚ) / (k : ℚ)|) : ℤ) : ℚ) := by
        exact_mod_cast congrArg (fun z : ℤ => (z : ℚ))
          (Int.toNat_of_nonneg hy0)
      rw [hcast]
      have hveq : v = (m : ℚ) * h / w := by
        rw [hvdef, div_div_eq_mul_div]
      rw [← hveq]
      exact hy2
  exact ⟨hmain.1, hmain.2.1, hmain.2.2, rfl⟩

/-- Witness for C9: a 320 × 200 image bounded at 160 becomes 160 × 100,
both dimensions within the bound and the height exactly aspect-true. -/
theorem thumbnail_spec_witness :
    (1 ≤ 320 ∧ 1 ≤ 200 ∧ 1 ≤ 160) ∧
    ((thumbnailSize 320 200 160).1 ≤ 160 ∧
      (thumbnailSize 320 200 160).2 ≤ 160 ∧
      (((thumbnailSize 320 200 160).1 = 320 ∧
          (thumbnailSize 320 200 160).2 = 200) ∨
        ((thumbnailSize 320 200 160).2 = 160 ∧
          |((thumbnailSize 320 200 160).1 : ℚ) - (160 : ℚ) * 320 / 200| ≤ 1) ∨
        ((thumbnailSize 320 200 160).1 = 160 ∧
          |((thumbnailSize 320 200 160).2 : ℚ) - (160 : ℚ) * 200 / 320| ≤ 1)) ∧
      makeImagePreview (fun _ => ['p']) (fun s => s) 160 (320, 200) =
        dataUriHead ++ (fun s : Str => s)
          ((fun _ : ℕ × ℕ => ['p']) (thumbnailSize 320 200 160))) :=
  ⟨⟨by norm_num, by norm_num, by norm_num⟩,
    thumbnail_spec 320 200 160 (by norm_num) (by norm_num) (by norm_num)
      (fun _ => ['p']) (fun s => s)⟩

end OutlineIQ
